import Mathlib

/-!
Verification of the InstanceSecret node: a shallow embedding of the execute
routine of src/dist/nodes/InstanceSecret/InstanceSecret.node.js.

Modelling conventions:
  - a JS string is a list of characters (Unicode scalar values);
  - bytes are natural numbers below 256;
  - the AES-256 block primitive from the Node crypto library is an abstract
    keyed block transformation passed as a parameter, assumed to be inverted
    by its decryption direction on 16-byte blocks and to preserve block
    length and byte range; CBC chaining, PKCS7 padding, the text encodings
    and the token logic are modelled concretely from the source;
  - the random IV drawn by randomBytes(16) is an explicit parameter.
-/

namespace InstanceSecret

instance {e a : Type} [DecidableEq e] [DecidableEq a] : DecidableEq (Except e a) := fun x y =>
  match x, y with
  | .ok u, .ok v =>
    if h : u = v then isTrue (by rw [h]) else isFalse (by intro hc; cases hc; exact h rfl)
  | .error u, .error v =>
    if h : u = v then isTrue (by rw [h]) else isFalse (by intro hc; cases hc; exact h rfl)
  | .ok _, .error _ => isFalse (by intro hc; cases hc)
  | .error _, .ok _ => isFalse (by intro hc; cases hc)

/-- Byte range predicate: every entry of the list is below 256. -/
def allBytes (l : List Nat) : Prop := ∀ x ∈ l, x < 256

instance (l : List Nat) : Decidable (allBytes l) := by
  unfold allBytes; infer_instance

/-! ## Hexadecimal text encoding, as Buffer toString and Buffer.from with hex -/

/-- Lowercase hexadecimal digit of a value below 16. -/
def hexDig (n : Nat) : Char := if n < 10 then Char.ofNat (48 + n) else Char.ofNat (87 + n)

/-- Encode bytes as lowercase hexadecimal text, two digits per byte. -/
def hexEncode (b : List Nat) : List Char :=
  b.flatMap (fun x => [hexDig (x / 16), hexDig (x % 16)])

/-- Numeric value of one hexadecimal digit, accepting both letter cases. -/
def hexVal (c : Char) : Option Nat :=
  if 48 ≤ c.toNat ∧ c.toNat ≤ 57 then some (c.toNat - 48)
  else if 97 ≤ c.toNat ∧ c.toNat ≤ 102 then some (c.toNat - 87)
  else if 65 ≤ c.toNat ∧ c.toNat ≤ 70 then some (c.toNat - 55)
  else none

/-- Decode hexadecimal text to bytes, consuming digit pairs and stopping at the
first pair that is not two hexadecimal digits, as the Node hex decoder does. -/
def hexDecode : List Char → List Nat
  | c1 :: c2 :: rest =>
    match hexVal c1, hexVal c2 with
    | some h, some l => (16 * h + l) :: hexDecode rest
    | _, _ => []
  | _ => []

/-! ## Base64 and base64url text encodings -/

/-- Character of the standard base64 alphabet at an index below 64. -/
def b64Char (n : Nat) : Char :=
  if n < 26 then Char.ofNat (65 + n)
  else if n < 52 then Char.ofNat (97 + (n - 26))
  else if n < 62 then Char.ofNat (48 + (n - 52))
  else if n = 62 then Char.ofNat 43
  else Char.ofNat 47

/-- Standard base64 encoding with padding, three input bytes per four output
characters, as Buffer toString with base64. -/
def b64Encode : List Nat → List Char
  | [] => []
  | [b1] => [b64Char (b1 / 4), b64Char (b1 % 4 * 16), '=', '=']
  | [b1, b2] => [b64Char (b1 / 4), b64Char (b1 % 4 * 16 + b2 / 16), b64Char (b2 % 16 * 4), '=']
  | b1 :: b2 :: b3 :: rest =>
    b64Char (b1 / 4) :: b64Char (b1 % 4 * 16 + b2 / 16) :: b64Char (b2 % 16 * 4 + b3 / 64) ::
      b64Char (b3 % 64) :: b64Encode rest

/-- Index of a base64 alphabet character; the Node base64 decoder also accepts
the URL alphabet; padding and foreign characters give none. -/
def b64Val (c : Char) : Option Nat :=
  if 65 ≤ c.toNat ∧ c.toNat ≤ 90 then some (c.toNat - 65)
  else if 97 ≤ c.toNat ∧ c.toNat ≤ 122 then some (c.toNat - 71)
  else if 48 ≤ c.toNat ∧ c.toNat ≤ 57 then some (c.toNat + 4)
  else if c = '+' ∨ c = '-' then some 62
  else if c = '/' ∨ c = '_' then some 63
  else none

/-- Reassemble bytes from six-bit values, four values per three bytes; a
truncated final group yields the bytes its bits fully cover. -/
def b64DecVals : List Nat → List Nat
  | v1 :: v2 :: v3 :: v4 :: rest =>
    (v1 * 4 + v2 / 16) :: (v2 % 16 * 16 + v3 / 4) :: (v3 % 4 * 64 + v4) :: b64DecVals rest
  | [v1, v2] => [v1 * 4 + v2 / 16]
  | [v1, v2, v3] => [v1 * 4 + v2 / 16, v2 % 16 * 16 + v3 / 4]
  | _ => []

/-- Decode base64 text to bytes, skipping padding and non-alphabet characters,
as Buffer.from with base64 does. -/
def b64Decode (s : List Char) : List Nat := b64DecVals (s.filterMap b64Val)

/-- Replace every occurrence of one character by another, as a global one
character regex replace. -/
def replaceChar (a b : Char) (s : List Char) : List Char :=
  s.map (fun c => if c = a then b else c)

/-- Delete every occurrence of a character, as a global regex replace by the
empty string. -/
def removeChar (a : Char) (s : List Char) : List Char := s.filter (fun c => c ≠ a)

/-- Convert standard base64 text to base64url exactly as the encrypt branch
does: plus to hyphen, slash to underscore, then strip the padding. -/
def b64UrlOf (s : List Char) : List Char :=
  removeChar '=' (replaceChar '/' '_' (replaceChar '+' '-' s))

/-- Convert base64url text back to standard base64 exactly as the decrypt
branch does: hyphen to plus, underscore to slash; no padding is restored. -/
def b64StdOf (s : List Char) : List Char := replaceChar '_' '/' (replaceChar '-' '+' s)

/-! ## UTF-8, as Buffer.from with utf8 and the Node string decoder -/

/-- UTF-8 encoding of one Unicode scalar value. -/
def utf8Char (c : Char) : List Nat :=
  let n := c.toNat
  if n < 128 then [n]
  else if n < 2048 then [192 + n / 64, 128 + n % 64]
  else if n < 65536 then [224 + n / 4096, 128 + n / 64 % 64, 128 + n % 64]
  else [240 + n / 262144, 128 + n / 4096 % 64, 128 + n / 64 % 64, 128 + n % 64]

/-- UTF-8 encoding of a string. -/
def utf8Enc (s : List Char) : List Nat := s.flatMap utf8Char

/-- Unicode replacement character emitted for invalid byte sequences. -/
def repl : Char := Char.ofNat 65533

/-- Test of a UTF-8 continuation byte. -/
def isCont (b : Nat) : Bool := 128 ≤ b && b ≤ 191

/-- Allowed second byte after a three-byte leading byte. -/
def utf8Ok3 (b1 b2 : Nat) : Bool :=
  if b1 = 224 then 160 ≤ b2 && b2 ≤ 191
  else if b1 = 237 then 128 ≤ b2 && b2 ≤ 159
  else isCont b2

/-- Allowed second byte after a four-byte leading byte. -/
def utf8Ok4 (b1 b2 : Nat) : Bool :=
  if b1 = 240 then 144 ≤ b2 && b2 ≤ 191
  else if b1 = 244 then 128 ≤ b2 && b2 ≤ 143
  else isCont b2

/-- Decoding step for one code point: the leading byte and the bytes after it
give the decoded character (the replacement character on an invalid sequence)
and the remaining bytes. -/
def utf8Step (b1 : Nat) (rest : List Nat) : Char × List Nat :=
  if b1 < 128 then (Char.ofNat b1, rest)
  else if 194 ≤ b1 && b1 ≤ 223 then
    match rest with
    | b2 :: rest2 =>
      if isCont b2 then (Char.ofNat ((b1 - 192) * 64 + (b2 - 128)), rest2)
      else (repl, rest)
    | [] => (repl, [])
  else if 224 ≤ b1 && b1 ≤ 239 then
    match rest with
    | b2 :: b3 :: rest3 =>
      if utf8Ok3 b1 b2 && isCont b3 then
        (Char.ofNat ((b1 - 224) * 4096 + (b2 - 128) * 64 + (b3 - 128)), rest3)
      else (repl, rest)
    | _ => (repl, rest)
  else if 240 ≤ b1 && b1 ≤ 244 then
    match rest with
    | b2 :: b3 :: b4 :: rest4 =>
      if utf8Ok4 b1 b2 && isCont b3 && isCont b4 then
        (Char.ofNat ((b1 - 240) * 262144 + (b2 - 128) * 4096 + (b3 - 128) * 64 + (b4 - 128)),
          rest4)
      else (repl, rest)
    | _ => (repl, rest)
  else (repl, rest)

/-- Fuel-driven decoding loop; every step consumes at least one byte, so fuel
equal to the byte count always suffices. -/
def utf8DecFuel : Nat → List Nat → List Char
  | 0, _ => []
  | _ + 1, [] => []
  | f + 1, b1 :: rest =>
    let s := utf8Step b1 rest
    s.1 :: utf8DecFuel f s.2

/-- Decode UTF-8 bytes to text, replacing invalid sequences with the
replacement character, as the Node string decoder does. -/
def utf8Dec (l : List Nat) : List Char := utf8DecFuel l.length l

/-! ## AES-256-CBC with PKCS7 padding over an abstract block primitive -/

/-- Pointwise xor of two byte lists. -/
def xorBytes (a b : List Nat) : List Nat := List.zipWith (fun x y => x ^^^ y) a b

/-- PKCS7 padding to the 16-byte AES block size. -/
def pkcs7pad (m : List Nat) : List Nat :=
  let p := 16 - m.length % 16
  m ++ List.replicate p p

/-- Fuel-driven block splitting; every step consumes at least one byte, so
fuel equal to the byte count always suffices. -/
def chunksFuel : Nat → List Nat → List (List Nat)
  | 0, _ => []
  | _ + 1, [] => []
  | f + 1, b :: t => ((b :: t).take 16) :: chunksFuel f ((b :: t).drop 16)

/-- Split a byte list into 16-byte blocks, the last possibly shorter. -/
def chunks (l : List Nat) : List (List Nat) := chunksFuel l.length l

/-- CBC encryption over a block list with an abstract keyed block cipher. -/
def cbcEnc (E : List Nat → List Nat → List Nat) (key : List Nat) :
    List Nat → List (List Nat) → List (List Nat)
  | _, [] => []
  | prev, b :: bs =>
    let c := E key (xorBytes prev b)
    c :: cbcEnc E key c bs

/-- CBC decryption over a block list with an abstract keyed block cipher. -/
def cbcDec (D : List Nat → List Nat → List Nat) (key : List Nat) :
    List Nat → List (List Nat) → List (List Nat)
  | _, [] => []
  | prev, c :: cs => xorBytes prev (D key c) :: cbcDec D key c cs

/-- Failures of the cipher primitive during decryption. -/
inductive CbcError where
  | invalidKeyLen : CbcError
  | invalidIvLen : CbcError
  | wrongFinal : CbcError
  | badDecrypt : CbcError
deriving DecidableEq

/-- PKCS7 unpadding with the full padding check the OpenSSL provider performs. -/
def pkcs7unpad (l : List Nat) : Except CbcError (List Nat) :=
  match l.getLast? with
  | none => .error .badDecrypt
  | some p =>
    if p = 0 ∨ 16 < p then .error .badDecrypt
    else if l.drop (l.length - p) = List.replicate p p then .ok (l.take (l.length - p))
    else .error .badDecrypt

/-- AES-256-CBC decryption of a ciphertext byte list: the createDecipheriv
checks on key and iv, block processing, then padding removal. -/
def decryptBytes (D : List Nat → List Nat → List Nat) (key iv cbytes : List Nat) :
    Except CbcError (List Nat) :=
  if key.length ≠ 32 then .error .invalidKeyLen
  else if iv.length ≠ 16 then .error .invalidIvLen
  else if cbytes.length = 0 ∨ cbytes.length % 16 ≠ 0 then .error .wrongFinal
  else pkcs7unpad (cbcDec D key iv (chunks cbytes)).flatten

/-- AES-256-CBC encryption of a message byte list: pad, then CBC the blocks. -/
def encryptBytes (E : List Nat → List Nat → List Nat) (key iv m : List Nat) : List Nat :=
  (cbcEnc E key iv (chunks (pkcs7pad m))).flatten

/-! ## Token level: errors, detection, decrypt and encrypt operations -/

/-- Per-item failures raised inside the execute loop. -/
inductive CodecError where
  | formatSeparator : CodecError
  | formatDetect (ivLen : Nat) : CodecError
  | decryptFail (e : CbcError) : CodecError
  | cipherInit : CodecError
  | unknownFormat (fmt : List Char) : CodecError
  | unknownOperation (op : List Char) : CodecError
deriving DecidableEq

/-- Character class of the hex detection rule. -/
def isHexChar (c : Char) : Bool :=
  (48 ≤ c.toNat && c.toNat ≤ 57) || (97 ≤ c.toNat && c.toNat ≤ 102) ||
    (65 ≤ c.toNat && c.toNat ≤ 70)

/-- Character class of the base64url detection rule. -/
def isUrlChar (c : Char) : Bool :=
  (65 ≤ c.toNat && c.toNat ≤ 90) || (97 ≤ c.toNat && c.toNat ≤ 122) ||
    (48 ≤ c.toNat && c.toNat ≤ 57) || c == '_' || c == '-'

/-- Detected token encoding: the encoding name with the base64url flag folded
into one value. -/
inductive EncMode where
  | hexM : EncMode
  | b64M : EncMode
  | b64UrlM : EncMode
deriving DecidableEq

/-- Encoding detection applied to the IV segment, in source order: hex first,
then standard base64, then base64url, else a format error with the length. -/
def detectEnc (ivs : List Char) : Except CodecError EncMode :=
  if ivs.length = 32 ∧ ivs.all isHexChar then .ok .hexM
  else if (ivs.length = 24 ∨ ivs.length = 22) ∧
      ivs.any (fun c => c == '+' || c == '/' || c == '=') then .ok .b64M
  else if ivs.length = 22 ∧ ivs.all isUrlChar then .ok .b64UrlM
  else .error (.formatDetect ivs.length)

/-- Split on the period character exactly as the JS string split does. -/
def splitDot : List Char → List (List Char)
  | [] => [[]]
  | c :: rest =>
    if c = '.' then [] :: splitDot rest
    else
      match splitDot rest with
      | [] => [[c]]
      | p :: ps => (c :: p) :: ps

/-- Decode one token segment under the detected encoding: the hex and base64
paths are Buffer.from with the detected name, the base64url path converts the
alphabet first and then decodes as base64; the source applies the same rule
to the iv segment and the data segment. -/
def decodeSeg (m : EncMode) (s : List Char) : List Nat :=
  match m with
  | .hexM => hexDecode s
  | .b64M => b64Decode s
  | .b64UrlM => b64Decode (b64StdOf s)

/-- Decrypt operation on a token: structural validation, encoding detection,
segment decoding, cipher run, utf8 conversion of the result. -/
def decryptToken (D : List Nat → List Nat → List Nat) (key : List Nat) (tok : List Char) :
    Except CodecError (List Char) :=
  if !(tok.contains '.') then .error .formatSeparator
  else
    match splitDot tok with
    | [ivs, cs] =>
      match detectEnc ivs with
      | .error e => .error e
      | .ok m =>
        match decryptBytes D key (decodeSeg m ivs) (decodeSeg m cs) with
        | .error e => .error (.decryptFail e)
        | .ok pt => .ok (utf8Dec pt)
    | _ => .error .formatSeparator

/-- Name of the hex output format option. -/
def hexName : List Char := "hex".data

/-- Name of the base64 output format option. -/
def b64Name : List Char := "base64".data

/-- Name of the base64url output format option. -/
def b64UrlName : List Char := "base64url".data

/-- Encrypt operation: cipher the utf8 bytes of the plaintext under the drawn
iv, then join the encoded iv and ciphertext with a period, per format. -/
def encryptToken (E : List Nat → List Nat → List Nat) (key iv : List Nat)
    (fmt plain : List Char) : Except CodecError (List Char) :=
  if key.length ≠ 32 ∨ iv.length ≠ 16 then .error .cipherInit
  else
    let ct := encryptBytes E key iv (utf8Enc plain)
    if fmt = b64UrlName then .ok (b64UrlOf (b64Encode iv) ++ '.' :: b64UrlOf (b64Encode ct))
    else if fmt = hexName then .ok (hexEncode iv ++ '.' :: hexEncode ct)
    else if fmt = b64Name then .ok (b64Encode iv ++ '.' :: b64Encode ct)
    else .error (.unknownFormat fmt)

/-! ## Key derivation and the execute loop -/

/-- The padEnd JS string method: right-pad with a fill character up to a
target length; a string already long enough is unchanged. -/
def padEnd (n : Nat) (fill : Char) (s : List Char) : List Char :=
  s ++ List.replicate (n - s.length) fill

/-- Key derivation from the environment secret: padEnd to 32 with the zero
digit, slice the first 32 characters, then the utf8 bytes of the result. -/
def deriveKey (s : List Char) : List Nat := utf8Enc ((padEnd 32 '0' s).take 32)

/-- Modelled from the spec: the byte-level derivation the specification
describes, right-padding the utf8 bytes of the secret with byte 0x30 to
length 32, or truncating them to exactly the first 32 bytes. -/
def deriveKeySpec (s : List Char) : List Nat :=
  let b := utf8Enc s
  if b.length < 32 then b ++ List.replicate (32 - b.length) 48 else b.take 32

/-- Per-item parameters read from the node. -/
structure ItemParams where
  operation : List Char
  inputField : List Char
  outputFieldName : List Char
  keepOriginal : Option Bool
  outputFormat : Option (List Char)
deriving DecidableEq

/-- One input item: its json fields in order plus its parameters. -/
structure Item where
  json : List (List Char × List Char)
  params : ItemParams
deriving DecidableEq

/-- One output record. -/
structure OutRecord where
  json : List (List Char × List Char)
  pairedItem : Nat
deriving DecidableEq

/-- Effective output format: the option value unless absent or empty (both
falsy), else hex. -/
def effFormat (o : Option (List Char)) : List Char :=
  match o with
  | none => hexName
  | some s => if s = [] then hexName else s

/-- Effective keepOriginal: true for every value other than exactly false. -/
def effKeep (o : Option Bool) : Bool :=
  match o with
  | some false => false
  | _ => true

/-- Process one item to its result string or a per-item error. -/
def processItem (E D : List Nat → List Nat → List Nat) (key iv : List Nat) (p : ItemParams) :
    Except CodecError (List Char) :=
  if p.operation = "encrypt".data then encryptToken E key iv (effFormat p.outputFormat) p.inputField
  else if p.operation = "decrypt".data then decryptToken D key p.inputField
  else .error (.unknownOperation p.operation)

/-- Set a field on a json object: overwrite in place when the name is already
present, else append the new field at the end. -/
def setField (js : List (List Char × List Char)) (k v : List Char) :
    List (List Char × List Char) :=
  if js.any (fun kv => kv.1 == k) then js.map (fun kv => if kv.1 == k then (k, v) else kv)
  else js ++ [(k, v)]

/-- The successful output record of an item: the original fields kept or
dropped per keepOriginal, then the result stored under the output field name. -/
def okRecord (it : Item) (idx : Nat) (result : List Char) : OutRecord :=
  { json := setField (if effKeep it.params.keepOriginal then it.json else [])
      it.params.outputFieldName result
    pairedItem := idx }

/-- Message text of the wrapped cipher errors. -/
def cbcMessage (e : CbcError) : List Char :=
  match e with
  | .invalidKeyLen => "Invalid key length".data
  | .invalidIvLen => "Invalid initialization vector".data
  | .wrongFinal => "wrong final block length".data
  | .badDecrypt => "bad decrypt".data

/-- Message of a per-item error, as the thrown error message text. -/
def errMessage (e : CodecError) : List Char :=
  match e with
  | .formatSeparator => "Invalid encrypted text format. Expected format: iv.encryptedData".data
  | .formatDetect n =>
    "Unable to detect encoding format. IV length: ".data ++ (Nat.repr n).data ++
      ". Expected 32 (hex), 24 (base64), or 22 (base64url)".data
  | .decryptFail e2 => "Decryption failed: ".data ++ cbcMessage e2
  | .cipherInit => "Invalid key length".data
  | .unknownFormat f => "Unknown encoding: ".data ++ f
  | .unknownOperation op => "Unknown operation: ".data ++ op

/-- The error record pushed under continueOnFail. -/
def errRecord (idx : Nat) (e : CodecError) : OutRecord :=
  { json := [("error".data, errMessage e)], pairedItem := idx }

/-- Batch-level failure: missing configuration, or a propagated per-item
error carrying its item index. -/
inductive ExecError where
  | configError : ExecError
  | itemError (idx : Nat) (e : CodecError) : ExecError
deriving DecidableEq

/-- The per-item loop from a start index: push the normal record on success;
on a per-item error, push an error record when continueOnFail, else abort. -/
def runItems (E D : List Nat → List Nat → List Nat) (key : List Nat) (cont : Bool)
    (ivs : Nat → List Nat) : Nat → List Item → Except ExecError (List OutRecord)
  | _, [] => .ok []
  | idx, it :: rest =>
    match processItem E D key (ivs idx) it.params with
    | .ok r =>
      match runItems E D key cont ivs (idx + 1) rest with
      | .ok recs => .ok (okRecord it idx r :: recs)
      | .error e => .error e
    | .error e =>
      if cont then
        match runItems E D key cont ivs (idx + 1) rest with
        | .ok recs => .ok (errRecord idx e :: recs)
        | .error e2 => .error e2
      else .error (.itemError idx e)

/-- The execute entry point: configuration check before the loop (an absent or
empty secret is falsy), key derivation once, then the per-item loop. -/
def execute (E D : List Nat → List Nat → List Nat) (env : Option (List Char)) (cont : Bool)
    (ivs : Nat → List Nat) (items : List Item) : Except ExecError (List OutRecord) :=
  match env with
  | none => .error .configError
  | some ek =>
    if ek = [] then .error .configError
    else runItems E D (deriveKey ek) cont ivs 0 items

/-- Lowercase hexadecimal character class, for the token shape property. -/
def isLowerHex (c : Char) : Bool :=
  (48 ≤ c.toNat && c.toNat ≤ 57) || (97 ≤ c.toNat && c.toNat ≤ 102)

/-! ## Lemmas about the hexadecimal encoding -/

theorem hexVal_hexDig : ∀ n < 16, hexVal (hexDig n) = some n := by decide

theorem hexDig_isHexChar : ∀ n < 16, isHexChar (hexDig n) = true := by decide

theorem hexDig_isLowerHex : ∀ n < 16, isLowerHex (hexDig n) = true := by decide

theorem hexDig_ne_dot : ∀ n < 16, hexDig n ≠ '.' := by decide

theorem hexDecode_hexEncode : ∀ b : List Nat, allBytes b → hexDecode (hexEncode b) = b
  | [], _ => rfl
  | x :: rest, h => by
    have hx : x < 256 := h x (List.mem_cons_self x rest)
    have h1 : hexVal (hexDig (x / 16)) = some (x / 16) := hexVal_hexDig _ (by omega)
    have h2 : hexVal (hexDig (x % 16)) = some (x % 16) := hexVal_hexDig _ (by omega)
    have ih := hexDecode_hexEncode rest (fun y hy => h y (List.mem_cons_of_mem x hy))
    have hkey : 16 * (x / 16) + x % 16 = x := by omega
    simp only [hexEncode, List.flatMap_cons, List.cons_append, List.nil_append] at ih ⊢
    simp [hexDecode, h1, h2, hkey, ih]

theorem hexEncode_length (b : List Nat) : (hexEncode b).length = 2 * b.length := by
  induction b with
  | nil => rfl
  | cons x rest ih =>
    simp only [hexEncode, List.flatMap_cons] at ih ⊢
    simp only [List.length_append, List.length_cons, ih, List.length_nil]
    omega

theorem hexEncode_chars (b : List Nat) (hb : allBytes b) :
    ∀ c ∈ hexEncode b, ∃ n, n < 16 ∧ c = hexDig n := by
  intro c hc
  simp only [hexEncode, List.mem_flatMap, List.mem_cons, List.not_mem_nil, or_false] at hc
  obtain ⟨x, hx, hc⟩ := hc
  have hxb : x < 256 := hb x hx
  rcases hc with rfl | rfl
  · exact ⟨x / 16, by omega, rfl⟩
  · exact ⟨x % 16, by omega, rfl⟩

theorem hexEncode_no_dot (b : List Nat) (hb : allBytes b) : '.' ∉ hexEncode b := by
  intro hmem
  obtain ⟨n, hn, hc⟩ := hexEncode_chars b hb ('.') hmem
  exact hexDig_ne_dot n hn hc.symm

theorem hexEncode_all_hex (b : List Nat) (hb : allBytes b) :
    (hexEncode b).all isHexChar = true := by
  rw [List.all_eq_true]
  intro c hc
  obtain ⟨n, hn, rfl⟩ := hexEncode_chars b hb c hc
  exact hexDig_isHexChar n hn

theorem hexEncode_all_lower (b : List Nat) (hb : allBytes b) :
    (hexEncode b).all isLowerHex = true := by
  rw [List.all_eq_true]
  intro c hc
  obtain ⟨n, hn, rfl⟩ := hexEncode_chars b hb c hc
  exact hexDig_isLowerHex n hn

/-! ## Lemmas about the base64 and base64url encodings -/

theorem b64Val_b64Char : ∀ n < 64, b64Val (b64Char n) = some n := by decide

theorem b64Char_ne_pad : ∀ n < 64, b64Char n ≠ '=' := by decide

theorem b64Val_pad : b64Val '=' = none := by decide

theorem b64Decode_b64Encode : ∀ b : List Nat, allBytes b → b64Decode (b64Encode b) = b
  | [], _ => rfl
  | [b1], h => by
    have h1 : b1 < 256 := h b1 (by simp)
    have e1 := b64Val_b64Char (b1 / 4) (by omega)
    have e2 := b64Val_b64Char (b1 % 4 * 16) (by omega)
    simp [b64Decode, b64Encode, e1, e2, b64Val_pad, b64DecVals]
    omega
  | [b1, b2], h => by
    have h1 : b1 < 256 := h b1 (by simp)
    have h2 : b2 < 256 := h b2 (by simp)
    have e1 := b64Val_b64Char (b1 / 4) (by omega)
    have e2 := b64Val_b64Char (b1 % 4 * 16 + b2 / 16) (by omega)
    have e3 := b64Val_b64Char (b2 % 16 * 4) (by omega)
    simp [b64Decode, b64Encode, e1, e2, e3, b64Val_pad, b64DecVals]
    constructor
    · omega
    · omega
  | b1 :: b2 :: b3 :: rest, h => by
    have h1 : b1 < 256 := h b1 (by simp)
    have h2 : b2 < 256 := h b2 (by simp)
    have h3 : b3 < 256 := h b3 (by simp)
    have e1 := b64Val_b64Char (b1 / 4) (by omega)
    have e2 := b64Val_b64Char (b1 % 4 * 16 + b2 / 16) (by omega)
    have e3 := b64Val_b64Char (b2 % 16 * 4 + b3 / 64) (by omega)
    have e4 := b64Val_b64Char (b3 % 64) (by omega)
    have ih := b64Decode_b64Encode rest (fun y hy => h y (by simp [hy]))
    simp only [b64Decode] at ih ⊢
    simp [b64Encode, e1, e2, e3, e4, b64DecVals, ih]
    refine ⟨by omega, by omega, by omega⟩

theorem b64Encode_length : ∀ b : List Nat, (b64Encode b).length = (b.length + 2) / 3 * 4
  | [] => rfl
  | [_] => by simp [b64Encode]
  | [_, _] => by simp [b64Encode]
  | b1 :: b2 :: b3 :: rest => by
    have ih := b64Encode_length rest
    simp only [b64Encode, List.length_cons, ih]
    omega

theorem b64Encode_chars : ∀ b : List Nat, allBytes b →
    ∀ c ∈ b64Encode b, c = '=' ∨ ∃ n, n < 64 ∧ c = b64Char n
  | [], _ => by simp [b64Encode]
  | [b1], h => by
    have h1 : b1 < 256 := h b1 (by simp)
    intro c hc
    simp only [b64Encode, List.mem_cons, List.not_mem_nil, or_false] at hc
    rcases hc with rfl | rfl | rfl | rfl
    · exact Or.inr ⟨b1 / 4, by omega, rfl⟩
    · exact Or.inr ⟨b1 % 4 * 16, by omega, rfl⟩
    · exact Or.inl rfl
    · exact Or.inl rfl
  | [b1, b2], h => by
    have h1 : b1 < 256 := h b1 (by simp)
    have h2 : b2 < 256 := h b2 (by simp)
    intro c hc
    simp only [b64Encode, List.mem_cons, List.not_mem_nil, or_false] at hc
    rcases hc with rfl | rfl | rfl | rfl
    · exact Or.inr ⟨b1 / 4, by omega, rfl⟩
    · exact Or.inr ⟨b1 % 4 * 16 + b2 / 16, by omega, rfl⟩
    · exact Or.inr ⟨b2 % 16 * 4, by omega, rfl⟩
    · exact Or.inl rfl
  | b1 :: b2 :: b3 :: rest, h => by
    have h1 : b1 < 256 := h b1 (by simp)
    have h2 : b2 < 256 := h b2 (by simp)
    have h3 : b3 < 256 := h b3 (by simp)
    have ih := b64Encode_chars rest (fun y hy => h y (by simp [hy]))
    intro c hc
    simp only [b64Encode, List.mem_cons] at hc
    rcases hc with rfl | rfl | rfl | rfl | hc
    · exact Or.inr ⟨b1 / 4, by omega, rfl⟩
    · exact Or.inr ⟨b1 % 4 * 16 + b2 / 16, by omega, rfl⟩
    · exact Or.inr ⟨b2 % 16 * 4 + b3 / 64, by omega, rfl⟩
    · exact Or.inr ⟨b3 % 64, by omega, rfl⟩
    · exact ih c hc

theorem b64Encode_pad_mem : ∀ b : List Nat, b.length % 3 = 1 → '=' ∈ b64Encode b
  | [], h => by simp at h
  | [b1], _ => by simp [b64Encode]
  | [_, _], h => by simp at h
  | b1 :: b2 :: b3 :: rest, h => by
    have hr : rest.length % 3 = 1 := by simp [List.length_cons] at h; omega
    have ih := b64Encode_pad_mem rest hr
    simp [b64Encode, ih]

theorem b64UrlOf_append (s t : List Char) : b64UrlOf (s ++ t) = b64UrlOf s ++ b64UrlOf t := by
  simp [b64UrlOf, replaceChar, removeChar]

theorem b64StdOf_append (s t : List Char) : b64StdOf (s ++ t) = b64StdOf s ++ b64StdOf t := by
  simp [b64StdOf, replaceChar]

theorem b64UrlOf_pad_nil : b64UrlOf ['='] = [] := by decide

theorem b64StdOf_b64UrlOf_alpha : ∀ n < 64, b64StdOf (b64UrlOf [b64Char n]) = [b64Char n] := by
  decide

theorem b64Char_ne_pad_filter : ∀ n < 64, (b64Char n ≠ '=') = True := by decide

theorem url_round_chars : ∀ s : List Char,
    (∀ c ∈ s, c = '=' ∨ ∃ n, n < 64 ∧ c = b64Char n) →
    b64StdOf (b64UrlOf s) = s.filter (fun c => c ≠ '=')
  | [], _ => rfl
  | c :: rest, h => by
    have ih := url_round_chars rest (fun d hd => h d (by simp [hd]))
    have hc : (c :: rest) = [c] ++ rest := rfl
    rw [hc, b64UrlOf_append, b64StdOf_append, ih, List.filter_append]
    rcases h c (by simp) with rfl | ⟨n, hn, rfl⟩
    · rw [b64UrlOf_pad_nil]
      simp [b64StdOf, replaceChar]
    · rw [b64StdOf_b64UrlOf_alpha n hn]
      have hne := b64Char_ne_pad n hn
      simp [hne]

theorem filterMap_b64Val_filter (s : List Char) :
    (s.filter (fun c => c ≠ '=')).filterMap b64Val = s.filterMap b64Val := by
  induction s with
  | nil => rfl
  | cons c rest ih =>
    simp only [ne_eq, decide_not] at ih ⊢
    by_cases hc : c = '='
    · subst hc
      simp [List.filter_cons, List.filterMap_cons, b64Val_pad, ih]
    · simp only [List.filter_cons, hc, decide_False, Bool.not_false, if_true,
        List.filterMap_cons]
      cases hbv : b64Val c <;> simp [hbv, ih]

theorem b64Decode_url (b : List Nat) (hb : allBytes b) :
    b64Decode (b64StdOf (b64UrlOf (b64Encode b))) = b := by
  have h1 := url_round_chars (b64Encode b) (b64Encode_chars b hb)
  rw [b64Decode, h1, filterMap_b64Val_filter]
  exact b64Decode_b64Encode b hb

theorem b64UrlOf_mem : ∀ s : List Char, ∀ c ∈ b64UrlOf s, ∃ d ∈ s, c ∈ b64UrlOf [d]
  | [], c => by simp [b64UrlOf, replaceChar, removeChar]
  | d :: rest, c => by
    intro hc
    have hsplit : (d :: rest) = [d] ++ rest := rfl
    rw [hsplit, b64UrlOf_append, List.mem_append] at hc
    rcases hc with hc | hc
    · exact ⟨d, by simp, hc⟩
    · obtain ⟨e, he, hce⟩ := b64UrlOf_mem rest c hc
      exact ⟨e, by simp [he], hce⟩

theorem b64Char_url_facts : ∀ n < 64, ∀ c ∈ b64UrlOf [b64Char n],
    isUrlChar c = true ∧ c ≠ '+' ∧ c ≠ '/' ∧ c ≠ '=' ∧ c ≠ '.' := by decide

theorem url_chars (b : List Nat) (hb : allBytes b) :
    ∀ c ∈ b64UrlOf (b64Encode b),
      isUrlChar c = true ∧ c ≠ '+' ∧ c ≠ '/' ∧ c ≠ '=' ∧ c ≠ '.' := by
  intro c hc
  obtain ⟨d, hd, hcd⟩ := b64UrlOf_mem (b64Encode b) c hc
  rcases b64Encode_chars b hb d hd with rfl | ⟨n, hn, rfl⟩
  · rw [b64UrlOf_pad_nil] at hcd
    cases hcd
  · exact b64Char_url_facts n hn c hcd

theorem b64UrlOf_alpha_length : ∀ n < 64, (b64UrlOf [b64Char n]).length = 1 := by decide

theorem url_length : ∀ b : List Nat, allBytes b → b.length % 3 = 1 →
    (b64UrlOf (b64Encode b)).length = (b.length + 2) / 3 * 4 - 2
  | [], _, h => by simp at h
  | [b1], h, _ => by
    have h1 : b1 < 256 := h b1 (by simp)
    have e1 := b64UrlOf_alpha_length (b1 / 4) (by omega)
    have e2 := b64UrlOf_alpha_length (b1 % 4 * 16) (by omega)
    have hsplit : b64Encode [b1] =
        [b64Char (b1 / 4)] ++ [b64Char (b1 % 4 * 16)] ++ ['='] ++ ['='] := by
      simp [b64Encode]
    rw [hsplit, b64UrlOf_append, b64UrlOf_append, b64UrlOf_append, b64UrlOf_pad_nil]
    simp [e1, e2]
  | [_, _], _, h => by simp at h
  | b1 :: b2 :: b3 :: rest, h, hm => by
    have h1 : b1 < 256 := h b1 (by simp)
    have h2 : b2 < 256 := h b2 (by simp)
    have h3 : b3 < 256 := h b3 (by simp)
    have hrm : rest.length % 3 = 1 := by simp [List.length_cons] at hm; omega
    have ih := url_length rest (fun y hy => h y (by simp [hy])) hrm
    have e1 := b64UrlOf_alpha_length (b1 / 4) (by omega)
    have e2 := b64UrlOf_alpha_length (b1 % 4 * 16 + b2 / 16) (by omega)
    have e3 := b64UrlOf_alpha_length (b2 % 16 * 4 + b3 / 64) (by omega)
    have e4 := b64UrlOf_alpha_length (b3 % 64) (by omega)
    have hsplit : b64Encode (b1 :: b2 :: b3 :: rest) =
        [b64Char (b1 / 4)] ++ [b64Char (b1 % 4 * 16 + b2 / 16)] ++
          [b64Char (b2 % 16 * 4 + b3 / 64)] ++ [b64Char (b3 % 64)] ++ b64Encode rest := by
      simp [b64Encode]
    rw [hsplit, b64UrlOf_append, b64UrlOf_append, b64UrlOf_append, b64UrlOf_append]
    simp only [List.length_append, e1, e2, e3, e4, ih, List.length_cons]
    have : 1 ≤ (rest.length + 2) / 3 * 4 := by omega
    omega

theorem url_nonempty : ∀ b : List Nat, allBytes b → b ≠ [] → b64UrlOf (b64Encode b) ≠ []
  | [], _, h => by simp at h
  | [b1], h, _ => by
    have h1 : b1 < 256 := h b1 (by simp)
    have e1 := b64UrlOf_alpha_length (b1 / 4) (by omega)
    have hsplit : b64Encode [b1] =
        [b64Char (b1 / 4)] ++ ([b64Char (b1 % 4 * 16)] ++ ['='] ++ ['=']) := by
      simp [b64Encode]
    rw [hsplit, b64UrlOf_append]
    intro hcon
    rw [List.append_eq_nil] at hcon
    have := hcon.1
    rw [← List.length_eq_zero] at this
    omega
  | [b1, b2], h, _ => by
    have h1 : b1 < 256 := h b1 (by simp)
    have e1 := b64UrlOf_alpha_length (b1 / 4) (by omega)
    have hsplit : b64Encode [b1, b2] =
        [b64Char (b1 / 4)] ++
          ([b64Char (b1 % 4 * 16 + b2 / 16)] ++ [b64Char (b2 % 16 * 4)] ++ ['=']) := by
      simp [b64Encode]
    rw [hsplit, b64UrlOf_append]
    intro hcon
    rw [List.append_eq_nil] at hcon
    have := hcon.1
    rw [← List.length_eq_zero] at this
    omega
  | b1 :: b2 :: b3 :: rest, h, _ => by
    have h1 : b1 < 256 := h b1 (by simp)
    have e1 := b64UrlOf_alpha_length (b1 / 4) (by omega)
    have hsplit : b64Encode (b1 :: b2 :: b3 :: rest) =
        [b64Char (b1 / 4)] ++
          (b64Char (b1 % 4 * 16 + b2 / 16) :: b64Char (b2 % 16 * 4 + b3 / 64) ::
            b64Char (b3 % 64) :: b64Encode rest) := by
      simp [b64Encode]
    rw [hsplit, b64UrlOf_append]
    intro hcon
    rw [List.append_eq_nil] at hcon
    have := hcon.1
    rw [← List.length_eq_zero] at this
    omega

/-! ## Lemmas about the UTF-8 conversion -/

theorem char_valid (c : Char) : c.toNat < 55296 ∨ (57343 < c.toNat ∧ c.toNat < 1114112) :=
  c.valid

theorem utf8Char_bytes (c : Char) : allBytes (utf8Char c) := by
  have hv := char_valid c
  intro x hx
  rw [utf8Char] at hx
  split_ifs at hx <;> simp only [List.mem_cons, List.not_mem_nil, or_false] at hx <;>
    rcases hx with rfl | rfl | rfl | rfl <;> omega

theorem utf8Enc_bytes (s : List Char) : allBytes (utf8Enc s) := by
  intro x hx
  simp only [utf8Enc, List.mem_flatMap] at hx
  obtain ⟨c, _, hxc⟩ := hx
  exact utf8Char_bytes c x hxc

theorem utf8Step_tail (b1 : Nat) (rest : List Nat) :
    (utf8Step b1 rest).2.length ≤ rest.length := by
  rcases rest with _ | ⟨b2, _ | ⟨b3, _ | ⟨b4, rest4⟩⟩⟩ <;>
    simp only [utf8Step] <;> split_ifs <;> simp <;> omega

theorem utf8DecFuel_congr : ∀ n l f1 f2, l.length ≤ n → l.length ≤ f1 → l.length ≤ f2 →
    utf8DecFuel f1 l = utf8DecFuel f2 l := by
  intro n
  induction n with
  | zero =>
    intro l f1 f2 h0 _ _
    have hl : l = [] := List.length_eq_zero.mp (Nat.le_zero.mp h0)
    subst hl
    cases f1 <;> cases f2 <;> rfl
  | succ n ih =>
    intro l f1 f2 hn h1 h2
    cases l with
    | nil => cases f1 <;> cases f2 <;> rfl
    | cons b1 rest =>
      simp only [List.length_cons] at hn h1 h2
      cases f1 with
      | zero => omega
      | succ a =>
        cases f2 with
        | zero => omega
        | succ b =>
          simp only [utf8DecFuel]
          have hs := utf8Step_tail b1 rest
          have := ih (utf8Step b1 rest).2 a b (by omega) (by omega) (by omega)
          rw [this]

theorem utf8Dec_fuel (f : Nat) (l : List Nat) (hf : l.length ≤ f) :
    utf8Dec l = utf8DecFuel f l :=
  utf8DecFuel_congr l.length l l.length f (le_refl _) (le_refl _) hf

theorem utf8Dec_append1 (c : Char) (tail : List Nat) :
    utf8Dec (utf8Char c ++ tail) = c :: utf8Dec tail := by
  have hv := char_valid c
  have step : ∀ b1 bs, utf8Step b1 (bs ++ tail) = (c, tail) →
      utf8Dec (b1 :: (bs ++ tail)) = c :: utf8Dec tail := by
    intro b1 bs hstep
    have hlen : (b1 :: (bs ++ tail)).length = (bs.length + tail.length) + 1 := by
      simp only [List.length_cons, List.length_append]
    rw [utf8Dec, hlen]
    simp only [utf8DecFuel, hstep]
    exact congrArg (c :: ·) (utf8Dec_fuel (bs.length + tail.length) tail (by omega)).symm
  by_cases h1 : c.toNat < 128
  · have he : utf8Char c = [c.toNat] := by rw [utf8Char]; simp [h1]
    rw [he, List.cons_append, List.nil_append]
    refine step c.toNat [] ?_
    simp [utf8Step, h1, Char.ofNat_toNat]
  · by_cases h2 : c.toNat < 2048
    · have he : utf8Char c = [192 + c.toNat / 64, 128 + c.toNat % 64] := by
        rw [utf8Char]; simp [h1, h2]
      rw [he, List.cons_append, List.cons_append, List.nil_append]
      refine step (192 + c.toNat / 64) [128 + c.toNat % 64] ?_
      have c1 : ¬(192 + c.toNat / 64 < 128) := by omega
      have c2 : 194 ≤ 192 + c.toNat / 64 := by omega
      have c3 : 192 + c.toNat / 64 ≤ 223 := by omega
      have c4 : isCont (128 + c.toNat % 64) = true := by
        simp only [isCont, Bool.and_eq_true, decide_eq_true_eq]; omega
      have harith : (192 + c.toNat / 64 - 192) * 64 + (128 + c.toNat % 64 - 128) = c.toNat := by
        omega
      simp only [List.cons_append, List.nil_append]
      simp [utf8Step, c1, c2, c3, c4, harith]
      rw [show c.toNat / 64 * 64 + c.toNat % 64 = c.toNat from by omega, Char.ofNat_toNat]
    · by_cases h3 : c.toNat < 65536
      · have he : utf8Char c =
            [224 + c.toNat / 4096, 128 + c.toNat / 64 % 64, 128 + c.toNat % 64] := by
          rw [utf8Char]; simp [h1, h2, h3]
        rw [he, List.cons_append, List.cons_append, List.cons_append, List.nil_append]
        refine step (224 + c.toNat / 4096) [128 + c.toNat / 64 % 64, 128 + c.toNat % 64] ?_
        have c1 : ¬(224 + c.toNat / 4096 < 128) := by omega
        have c2 : ¬(224 + c.toNat / 4096 ≤ 223) := by omega
        have c3 : 224 ≤ 224 + c.toNat / 4096 := by omega
        have c4 : 224 + c.toNat / 4096 ≤ 239 := by omega
        have c5 : utf8Ok3 (224 + c.toNat / 4096) (128 + c.toNat / 64 % 64) = true := by
          rw [utf8Ok3, isCont]
          split_ifs with ha hb <;> simp only [Bool.and_eq_true, decide_eq_true_eq] <;> omega
        have c6 : isCont (128 + c.toNat % 64) = true := by
          simp only [isCont, Bool.and_eq_true, decide_eq_true_eq]; omega
        have harith : (224 + c.toNat / 4096 - 224) * 4096 +
            (128 + c.toNat / 64 % 64 - 128) * 64 + (128 + c.toNat % 64 - 128) = c.toNat := by
          omega
        simp only [List.cons_append, List.nil_append]
        simp [utf8Step, c1, c2, c3, c4, c5, c6, harith]
        rw [show c.toNat / 4096 * 4096 + c.toNat / 64 % 64 * 64 + c.toNat % 64 = c.toNat from
          by omega, Char.ofNat_toNat]
      · have he : utf8Char c = [240 + c.toNat / 262144, 128 + c.toNat / 4096 % 64,
            128 + c.toNat / 64 % 64, 128 + c.toNat % 64] := by
          rw [utf8Char]; simp [h1, h2, h3]
        rw [he, List.cons_append, List.cons_append, List.cons_append, List.cons_append,
          List.nil_append]
        refine step (240 + c.toNat / 262144)
          [128 + c.toNat / 4096 % 64, 128 + c.toNat / 64 % 64, 128 + c.toNat % 64] ?_
        have c1 : ¬(240 + c.toNat / 262144 < 128) := by omega
        have c2 : ¬(240 + c.toNat / 262144 ≤ 223) := by omega
        have c3 : ¬(240 + c.toNat / 262144 ≤ 239) := by omega
        have c4 : 240 ≤ 240 + c.toNat / 262144 := by omega
        have c5 : 240 + c.toNat / 262144 ≤ 244 := by omega
        have c6 : utf8Ok4 (240 + c.toNat / 262144) (128 + c.toNat / 4096 % 64) = true := by
          rw [utf8Ok4, isCont]
          split_ifs with ha hb <;> simp only [Bool.and_eq_true, decide_eq_true_eq] <;> omega
        have c7 : isCont (128 + c.toNat / 64 % 64) = true := by
          simp only [isCont, Bool.and_eq_true, decide_eq_true_eq]; omega
        have c8 : isCont (128 + c.toNat % 64) = true := by
          simp only [isCont, Bool.and_eq_true, decide_eq_true_eq]; omega
        have harith : (240 + c.toNat / 262144 - 240) * 262144 +
            (128 + c.toNat / 4096 % 64 - 128) * 4096 +
            (128 + c.toNat / 64 % 64 - 128) * 64 + (128 + c.toNat % 64 - 128) = c.toNat := by
          omega
        simp only [List.cons_append, List.nil_append]
        simp [utf8Step, c1, c2, c3, c4, c5, c6, c7, c8, harith]
        rw [show c.toNat / 262144 * 262144 + c.toNat / 4096 % 64 * 4096 +
          c.toNat / 64 % 64 * 64 + c.toNat % 64 = c.toNat from by omega, Char.ofNat_toNat]

theorem utf8Dec_utf8Enc (s : List Char) : utf8Dec (utf8Enc s) = s := by
  induction s with
  | nil => rfl
  | cons c rest ih =>
    have hsplit : utf8Enc (c :: rest) = utf8Char c ++ utf8Enc rest := by
      simp [utf8Enc]
    rw [hsplit, utf8Dec_append1, ih]

/-! ## Lemmas about CBC, padding and chunking -/

theorem xorBytes_length (a b : List Nat) : (xorBytes a b).length = min a.length b.length := by
  simp [xorBytes]

theorem xorBytes_cancel : ∀ a b : List Nat, a.length = b.length →
    xorBytes a (xorBytes a b) = b
  | [], [], _ => rfl
  | x :: a, y :: b, h => by
    simp only [List.length_cons] at h
    simp only [xorBytes, List.zipWith_cons_cons]
    rw [show (fun x y => x ^^^ y) = HXor.hXor from rfl]
    rw [Nat.xor_cancel_left]
    exact congrArg (y :: ·) (xorBytes_cancel a b (by omega))
  | [], _ :: _, h => by simp at h
  | _ :: _, [], h => by simp at h

theorem xorBytes_bytes : ∀ a b : List Nat, allBytes a → allBytes b → allBytes (xorBytes a b)
  | [], _, _, _ => by intro x hx; simp [xorBytes] at hx
  | _ :: _, [], _, _ => by intro x hx; simp [xorBytes] at hx
  | x :: a, y :: b, ha, hb => by
    intro z hz
    simp only [xorBytes, List.zipWith_cons_cons, List.mem_cons] at hz
    rcases hz with rfl | hz
    · have h1 : x < 256 := ha x (by simp)
      have h2 : y < 256 := hb y (by simp)
      have h256 : (256 : Nat) = 2 ^ 8 := by norm_num
      rw [h256]
      exact Nat.xor_lt_two_pow (h256 ▸ h1) (h256 ▸ h2)
    · exact xorBytes_bytes a b (fun u hu => ha u (by simp [hu]))
        (fun u hu => hb u (by simp [hu])) z hz

theorem chunksFuel_congr : ∀ n l f1 f2, l.length ≤ n → l.length ≤ f1 → l.length ≤ f2 →
    chunksFuel f1 l = chunksFuel f2 l := by
  intro n
  induction n with
  | zero =>
    intro l f1 f2 h0 _ _
    have hl : l = [] := List.length_eq_zero.mp (Nat.le_zero.mp h0)
    subst hl
    cases f1 <;> cases f2 <;> rfl
  | succ n ih =>
    intro l f1 f2 hn h1 h2
    cases l with
    | nil => cases f1 <;> cases f2 <;> rfl
    | cons b t =>
      simp only [List.length_cons] at hn h1 h2
      cases f1 with
      | zero => omega
      | succ a =>
        cases f2 with
        | zero => omega
        | succ c =>
          simp only [chunksFuel]
          have hdl : ((b :: t).drop 16).length ≤ t.length := by
            rw [List.length_drop]
            simp only [List.length_cons]
            omega
          rw [ih ((b :: t).drop 16) a c (by omega) (by omega) (by omega)]

theorem chunks_cons (l : List Nat) (h : l ≠ []) :
    chunks l = l.take 16 :: chunks (l.drop 16) := by
  obtain ⟨b, t, rfl⟩ := List.exists_cons_of_ne_nil h
  show chunksFuel (b :: t).length (b :: t) = _
  simp only [List.length_cons, chunksFuel]
  rw [chunksFuel_congr ((b :: t).drop 16).length ((b :: t).drop 16) t.length
    ((b :: t).drop 16).length (le_refl _)
    (by rw [List.length_drop]; simp only [List.length_cons]; omega) (le_refl _)]
  rfl

theorem chunks_flatten (l : List Nat) : (chunks l).flatten = l := by
  generalize hn : l.length = n
  induction n using Nat.strong_induction_on generalizing l with
  | _ n ih =>
    by_cases h : l = []
    · subst h
      rfl
    · have hl : l.length ≠ 0 := fun h0 => h (List.length_eq_zero.mp h0)
      rw [chunks_cons l h, List.flatten_cons,
        ih (l.drop 16).length (by rw [List.length_drop]; omega) (l.drop 16) rfl,
        List.take_append_drop]

theorem chunks_all16 (l : List Nat) (hm : l.length % 16 = 0) :
    ∀ c ∈ chunks l, c.length = 16 := by
  generalize hn : l.length = n
  rw [hn] at hm
  induction n using Nat.strong_induction_on generalizing l with
  | _ n ih =>
    by_cases h : l = []
    · subst h
      intro c hc
      cases hc
    · have hl : l.length ≠ 0 := fun h0 => h (List.length_eq_zero.mp h0)
      subst hn
      have hge : 16 ≤ l.length := by omega
      rw [chunks_cons l h]
      intro c hc
      rcases List.mem_cons.mp hc with rfl | hc2
      · rw [List.length_take]
        omega
      · refine ih (l.drop 16).length (by rw [List.length_drop]; omega) (l.drop 16)
          (by rw [List.length_drop]; omega) rfl c hc2

theorem chunks_of_flatten : ∀ cs : List (List Nat), (∀ c ∈ cs, c.length = 16) →
    chunks cs.flatten = cs
  | [], _ => rfl
  | c :: cs, h => by
    have hc : c.length = 16 := h c (by simp)
    have hcs := chunks_of_flatten cs (fun d hd => h d (by simp [hd]))
    have hne : c ++ cs.flatten ≠ [] := by
      intro hnil
      rw [List.append_eq_nil] at hnil
      have := hnil.1
      rw [← List.length_eq_zero] at this
      omega
    rw [List.flatten_cons, chunks_cons _ hne]
    have ht : (c ++ cs.flatten).take 16 = c := by
      rw [← hc, List.take_left]
    have hd : (c ++ cs.flatten).drop 16 = cs.flatten := by
      rw [← hc, List.drop_left]
    rw [ht, hd, hcs]

theorem flatten_length16 : ∀ cs : List (List Nat), (∀ c ∈ cs, c.length = 16) →
    cs.flatten.length = 16 * cs.length
  | [], _ => rfl
  | c :: cs, h => by
    have hc : c.length = 16 := h c (by simp)
    have ih := flatten_length16 cs (fun d hd => h d (by simp [hd]))
    simp only [List.flatten_cons, List.length_append, List.length_cons, hc, ih]
    omega

theorem cbcEnc_length (E : List Nat → List Nat → List Nat) (key : List Nat) :
    ∀ bs prev, (cbcEnc E key prev bs).length = bs.length
  | [], _ => rfl
  | b :: bs, prev => by
    simp only [cbcEnc, List.length_cons]
    rw [cbcEnc_length E key bs]

theorem cbcEnc_all16 (E : List Nat → List Nat → List Nat) (key : List Nat)
    (hElen : ∀ b, (E key b).length = b.length) :
    ∀ bs prev, prev.length = 16 → (∀ b ∈ bs, b.length = 16) →
      ∀ c ∈ cbcEnc E key prev bs, c.length = 16
  | [], prev, _, _ => by simp [cbcEnc]
  | b :: bs, prev, hp, hb => by
    have hb1 : b.length = 16 := hb b (by simp)
    have hx : (xorBytes prev b).length = 16 := by
      rw [xorBytes_length, hp, hb1]; rfl
    have hc : (E key (xorBytes prev b)).length = 16 := by rw [hElen, hx]
    intro c hc2
    simp only [cbcEnc, List.mem_cons] at hc2
    rcases hc2 with rfl | hc2
    · exact hc
    · exact cbcEnc_all16 E key hElen bs (E key (xorBytes prev b)) hc
        (fun d hd => hb d (by simp [hd])) c hc2

theorem cbcEnc_bytes (E : List Nat → List Nat → List Nat) (key : List Nat)
    (hEB : ∀ b, allBytes b → allBytes (E key b)) :
    ∀ bs prev, allBytes prev → (∀ b ∈ bs, allBytes b) →
      ∀ c ∈ cbcEnc E key prev bs, allBytes c
  | [], prev, _, _ => by simp [cbcEnc]
  | b :: bs, prev, hp, hb => by
    have hc : allBytes (E key (xorBytes prev b)) :=
      hEB _ (xorBytes_bytes prev b hp (hb b (by simp)))
    intro c hc2
    simp only [cbcEnc, List.mem_cons] at hc2
    rcases hc2 with rfl | hc2
    · exact hc
    · exact cbcEnc_bytes E key hEB bs (E key (xorBytes prev b)) hc
        (fun d hd => hb d (by simp [hd])) c hc2

theorem cbcDec_cbcEnc (E D : List Nat → List Nat → List Nat) (key : List Nat)
    (hED : ∀ b, b.length = 16 → D key (E key b) = b)
    (hElen : ∀ b, (E key b).length = b.length) :
    ∀ bs prev, prev.length = 16 → (∀ b ∈ bs, b.length = 16) →
      cbcDec D key prev (cbcEnc E key prev bs) = bs
  | [], prev, _, _ => rfl
  | b :: bs, prev, hp, hb => by
    have hb1 : b.length = 16 := hb b (by simp)
    have hx : (xorBytes prev b).length = 16 := by
      rw [xorBytes_length, hp, hb1]; rfl
    have hdec : D key (E key (xorBytes prev b)) = xorBytes prev b := hED _ hx
    have hclen : (E key (xorBytes prev b)).length = 16 := by rw [hElen, hx]
    simp only [cbcEnc, cbcDec, hdec]
    rw [xorBytes_cancel prev b (by omega)]
    exact congrArg (b :: ·)
      (cbcDec_cbcEnc E D key hED hElen bs (E key (xorBytes prev b)) hclen
        (fun d hd => hb d (by simp [hd])))

theorem pkcs7pad_length (m : List Nat) :
    (pkcs7pad m).length = m.length + (16 - m.length % 16) := by
  simp [pkcs7pad]

theorem pkcs7pad_mod (m : List Nat) : (pkcs7pad m).length % 16 = 0 := by
  rw [pkcs7pad_length]
  omega

theorem pkcs7pad_ne_nil (m : List Nat) : pkcs7pad m ≠ [] := by
  intro h
  have := congrArg List.length h
  rw [pkcs7pad_length] at this
  simp at this
  omega

theorem pkcs7unpad_pkcs7pad (m : List Nat) : pkcs7unpad (pkcs7pad m) = .ok m := by
  have hp1 : 1 ≤ 16 - m.length % 16 := by omega
  have hp2 : 16 - m.length % 16 ≤ 16 := by omega
  have hlast : (pkcs7pad m).getLast? = some (16 - m.length % 16) := by
    rw [pkcs7pad]
    rw [List.getLast?_append_of_ne_nil]
    · rw [List.getLast?_replicate, if_neg (show ¬(16 - m.length % 16 = 0) from by omega)]
    · intro hz
      have := congrArg List.length hz
      simp at this
      omega
  rw [pkcs7unpad, hlast]
  simp only [pkcs7pad_length]
  have hc1 : ¬(16 - m.length % 16 = 0 ∨ 16 < 16 - m.length % 16) := by omega
  rw [if_neg hc1]
  have hdl : m.length + (16 - m.length % 16) - (16 - m.length % 16) = m.length := by omega
  rw [hdl]
  have hdrop : (pkcs7pad m).drop m.length =
      List.replicate (16 - m.length % 16) (16 - m.length % 16) := by
    rw [pkcs7pad, List.drop_left]
  have htake : (pkcs7pad m).take m.length = m := by
    rw [pkcs7pad, List.take_left]
  rw [hdrop, htake, if_pos rfl]

theorem decryptBytes_encryptBytes (E D : List Nat → List Nat → List Nat) (key iv m : List Nat)
    (hkey : key.length = 32) (hiv : iv.length = 16)
    (hED : ∀ b, b.length = 16 → D key (E key b) = b)
    (hElen : ∀ b, (E key b).length = b.length) :
    decryptBytes D key iv (encryptBytes E key iv m) = .ok m := by
  have hall : ∀ c ∈ chunks (pkcs7pad m), c.length = 16 :=
    chunks_all16 (pkcs7pad m) (pkcs7pad_mod m)
  have hct : ∀ c ∈ cbcEnc E key iv (chunks (pkcs7pad m)), c.length = 16 :=
    cbcEnc_all16 E key hElen (chunks (pkcs7pad m)) iv hiv hall
  have hctlen : (encryptBytes E key iv m).length = 16 * (chunks (pkcs7pad m)).length := by
    rw [encryptBytes, flatten_length16 _ hct, cbcEnc_length]
  have hpadlen : (pkcs7pad m).length = 16 * (chunks (pkcs7pad m)).length := by
    have := flatten_length16 (chunks (pkcs7pad m)) hall
    rw [chunks_flatten] at this
    exact this
  have hne : (chunks (pkcs7pad m)).length ≠ 0 := by
    intro h0
    have := pkcs7pad_ne_nil m
    rw [← chunks_flatten (pkcs7pad m), List.length_eq_zero.mp h0] at this
    exact this rfl
  rw [decryptBytes, if_neg (by omega), if_neg (by omega), if_neg (by rw [hctlen]; omega)]
  rw [encryptBytes, chunks_of_flatten _ hct,
    cbcDec_cbcEnc E D key hED hElen (chunks (pkcs7pad m)) iv hiv hall,
    chunks_flatten]
  exact pkcs7unpad_pkcs7pad m

theorem encryptBytes_bytes (E : List Nat → List Nat → List Nat) (key iv m : List Nat)
    (hivB : allBytes iv) (hmB : allBytes m)
    (hEB : ∀ b, allBytes b → allBytes (E key b)) :
    allBytes (encryptBytes E key iv m) := by
  have hpadB : allBytes (pkcs7pad m) := by
    intro x hx
    rw [pkcs7pad, List.mem_append] at hx
    rcases hx with hx | hx
    · exact hmB x hx
    · have := List.eq_of_mem_replicate hx
      omega
  have hchB : ∀ c ∈ chunks (pkcs7pad m), allBytes c := by
    intro c hc x hx
    have : x ∈ (chunks (pkcs7pad m)).flatten := List.mem_flatten.mpr ⟨c, hc, hx⟩
    rw [chunks_flatten] at this
    exact hpadB x this
  intro x hx
  rw [encryptBytes, List.mem_flatten] at hx
  obtain ⟨c, hc, hxc⟩ := hx
  exact cbcEnc_bytes E key hEB (chunks (pkcs7pad m)) iv hivB hchB c hc x hxc

theorem encryptBytes_ne_nil (E : List Nat → List Nat → List Nat) (key iv m : List Nat)
    (hElen : ∀ b, (E key b).length = b.length) (hiv : iv.length = 16) :
    encryptBytes E key iv m ≠ [] := by
  have hall : ∀ c ∈ chunks (pkcs7pad m), c.length = 16 :=
    chunks_all16 (pkcs7pad m) (pkcs7pad_mod m)
  have hct : ∀ c ∈ cbcEnc E key iv (chunks (pkcs7pad m)), c.length = 16 :=
    cbcEnc_all16 E key hElen (chunks (pkcs7pad m)) iv hiv hall
  have hctlen : (encryptBytes E key iv m).length = 16 * (chunks (pkcs7pad m)).length := by
    rw [encryptBytes, flatten_length16 _ hct, cbcEnc_length]
  have hne : (chunks (pkcs7pad m)).length ≠ 0 := by
    intro h0
    have := pkcs7pad_ne_nil m
    rw [← chunks_flatten (pkcs7pad m), List.length_eq_zero.mp h0] at this
    exact this rfl
  intro h
  have hlen0 := congrArg List.length h
  rw [hctlen] at hlen0
  simp only [List.length_nil] at hlen0
  omega

/-! ## Lemmas about token splitting and encoding detection -/

theorem splitDot_no_dot : ∀ s : List Char, '.' ∉ s → splitDot s = [s]
  | [], _ => rfl
  | c :: rest, h => by
    have hc : ¬(c = '.') := fun hcc => h (by simp [hcc])
    have ih := splitDot_no_dot rest (fun hm => h (by simp [hm]))
    rw [splitDot, if_neg hc, ih]

theorem splitDot_append (a b : List Char) (ha : '.' ∉ a) :
    splitDot (a ++ '.' :: b) = a :: splitDot b := by
  induction a with
  | nil =>
    simp only [List.nil_append]
    rw [splitDot, if_pos rfl]
  | cons c a ih =>
    have hc : ¬(c = '.') := fun hcc => ha (by simp [hcc])
    have iha := ih (fun hm => ha (by simp [hm]))
    simp only [List.cons_append]
    rw [splitDot, if_neg hc, iha]

theorem contains_dot (tok : List Char) (h : '.' ∈ tok) : tok.contains '.' = true := by
  rw [List.contains_eq_any_beq, List.any_eq_true]
  exact ⟨'.', h, by simp⟩

theorem detectEnc_hex (iv : List Nat) (hiv : iv.length = 16) (hb : allBytes iv) :
    detectEnc (hexEncode iv) = .ok .hexM := by
  rw [detectEnc, if_pos]
  exact ⟨by rw [hexEncode_length, hiv], hexEncode_all_hex iv hb⟩

theorem detectEnc_b64 (iv : List Nat) (hiv : iv.length = 16) :
    detectEnc (b64Encode iv) = .ok .b64M := by
  have hlen : (b64Encode iv).length = 24 := by rw [b64Encode_length, hiv]
  have hpad : '=' ∈ b64Encode iv := b64Encode_pad_mem iv (by rw [hiv])
  rw [detectEnc, if_neg, if_pos]
  · refine ⟨Or.inl hlen, ?_⟩
    rw [List.any_eq_true]
    exact ⟨'=', hpad, by simp⟩
  · rintro ⟨h32, _⟩
    rw [hlen] at h32
    exact absurd h32 (by omega)

theorem detectEnc_url (iv : List Nat) (hiv : iv.length = 16) (hb : allBytes iv) :
    detectEnc (b64UrlOf (b64Encode iv)) = .ok .b64UrlM := by
  have hlen : (b64UrlOf (b64Encode iv)).length = 22 := by
    rw [url_length iv hb (by rw [hiv]), hiv]
  have hchars := url_chars iv hb
  rw [detectEnc, if_neg, if_neg, if_pos]
  · refine ⟨hlen, ?_⟩
    rw [List.all_eq_true]
    intro c hc
    exact (hchars c hc).1
  · rintro ⟨_, hany⟩
    rw [List.any_eq_true] at hany
    obtain ⟨c, hc, hcp⟩ := hany
    obtain ⟨_, hp, hs, he, _⟩ := hchars c hc
    simp only [Bool.or_eq_true, beq_iff_eq] at hcp
    rcases hcp with (rfl | rfl) | rfl
    · exact hp rfl
    · exact hs rfl
    · exact he rfl
  · rintro ⟨h32, _⟩
    rw [hlen] at h32
    exact absurd h32 (by omega)

/-- Common round-trip argument once the token has been cut at the period and
the iv segment classified: the two segments decode back to the cipher bytes
and the cipher run inverts. -/
theorem decryptToken_ok (D : List Nat → List Nat → List Nat) (key : List Nat)
    (ivSeg ctSeg : List Char) (ivBytes ctBytes m : List Nat) (mode : EncMode)
    (hia : '.' ∉ ivSeg) (hca : '.' ∉ ctSeg)
    (hdet : detectEnc ivSeg = .ok mode)
    (hivDec : decodeSeg mode ivSeg = ivBytes)
    (hctDec : decodeSeg mode ctSeg = ctBytes)
    (hdec : decryptBytes D key ivBytes ctBytes = .ok m) :
    decryptToken D key (ivSeg ++ '.' :: ctSeg) = .ok (utf8Dec m) := by
  have hcont : ((ivSeg ++ '.' :: ctSeg).contains '.') = true :=
    contains_dot _ (by simp)
  rw [decryptToken, hcont]
  simp only [Bool.not_true, Bool.false_eq_true, if_false]
  rw [splitDot_append _ _ hia, splitDot_no_dot _ hca]
  simp only [hdet]
  rw [hivDec, hctDec, hdec]

/-- C1: round-trip. For every plaintext string, every 32-byte key, every
16-byte IV drawn during encryption, and each of the three encoding formats,
decrypting the token produced by encrypt with the same key returns the
plaintext. The AES-256 block primitive is an abstract parameter assumed
length-preserving, byte-valued and inverted by its decryption direction. -/
theorem claimC1_roundTrip (E D : List Nat → List Nat → List Nat) (key iv : List Nat)
    (P fmt : List Char)
    (hkey : key.length = 32) (hiv : iv.length = 16) (hivB : allBytes iv)
    (hED : ∀ b, b.length = 16 → D key (E key b) = b)
    (hElen : ∀ b, (E key b).length = b.length)
    (hEB : ∀ b, allBytes b → allBytes (E key b))
    (hfmt : fmt = hexName ∨ fmt = b64Name ∨ fmt = b64UrlName) :
    (encryptToken E key iv fmt P).bind (fun tok => decryptToken D key tok) = .ok P := by
  have hctB : allBytes (encryptBytes E key iv (utf8Enc P)) :=
    encryptBytes_bytes E key iv (utf8Enc P) hivB (utf8Enc_bytes P) hEB
  have hdec : decryptBytes D key iv (encryptBytes E key iv (utf8Enc P)) = .ok (utf8Enc P) :=
    decryptBytes_encryptBytes E D key iv (utf8Enc P) hkey hiv hED hElen
  have hinit : ¬(key.length ≠ 32 ∨ iv.length ≠ 16) := by
    push_neg
    exact ⟨hkey, hiv⟩
  rcases hfmt with rfl | rfl | rfl
  · rw [encryptToken, if_neg hinit,
      if_neg (show ¬(hexName = b64UrlName) from by decide), if_pos rfl]
    simp only [Except.bind]
    rw [decryptToken_ok D key _ _ iv (encryptBytes E key iv (utf8Enc P)) (utf8Enc P) .hexM
      (hexEncode_no_dot iv hivB) (hexEncode_no_dot _ hctB)
      (detectEnc_hex iv hiv hivB)
      (hexDecode_hexEncode iv hivB)
      (hexDecode_hexEncode _ hctB) hdec]
    rw [utf8Dec_utf8Enc]
  · have hnd1 : '.' ∉ b64Encode iv := by
      intro hm
      rcases b64Encode_chars iv hivB _ hm with hq | ⟨n, hn, hq⟩
      · exact absurd hq (by decide)
      · exact absurd hq.symm ((by decide : ∀ k < 64, b64Char k ≠ '.') n hn)
    have hnd2 : '.' ∉ b64Encode (encryptBytes E key iv (utf8Enc P)) := by
      intro hm
      rcases b64Encode_chars _ hctB _ hm with hq | ⟨n, hn, hq⟩
      · exact absurd hq (by decide)
      · exact absurd hq.symm ((by decide : ∀ k < 64, b64Char k ≠ '.') n hn)
    rw [encryptToken, if_neg hinit,
      if_neg (show ¬(b64Name = b64UrlName) from by decide),
      if_neg (show ¬(b64Name = hexName) from by decide), if_pos rfl]
    simp only [Except.bind]
    rw [decryptToken_ok D key _ _ iv (encryptBytes E key iv (utf8Enc P)) (utf8Enc P) .b64M
      hnd1 hnd2
      (detectEnc_b64 iv hiv)
      (b64Decode_b64Encode iv hivB)
      (b64Decode_b64Encode _ hctB) hdec]
    rw [utf8Dec_utf8Enc]
  · have hnd1 : '.' ∉ b64UrlOf (b64Encode iv) := by
      intro hm
      exact (url_chars iv hivB _ hm).2.2.2.2 rfl
    have hnd2 : '.' ∉ b64UrlOf (b64Encode (encryptBytes E key iv (utf8Enc P))) := by
      intro hm
      exact (url_chars _ hctB _ hm).2.2.2.2 rfl
    rw [encryptToken, if_neg hinit, if_pos rfl]
    simp only [Except.bind]
    rw [decryptToken_ok D key _ _ iv (encryptBytes E key iv (utf8Enc P)) (utf8Enc P) .b64UrlM
      hnd1 hnd2
      (detectEnc_url iv hiv hivB)
      (b64Decode_url iv hivB)
      (b64Decode_url _ hctB) hdec]
    rw [utf8Dec_utf8Enc]

/-! ## Claims about detection and structural validation -/

/-- C3: detection precedence. Every IV segment of length 22 containing none of
plus, slash, equals and consisting only of characters of the class
A-Z a-z 0-9 underscore hyphen is classified Base64UrlNoPad, because the
standard base64 rule demands one of those three characters and is checked
before the base64url rule. -/
theorem claimC3_detectPrecedence (ivs : List Char)
    (hlen : ivs.length = 22)
    (hnp : '+' ∉ ivs) (hns : '/' ∉ ivs) (hne : '=' ∉ ivs)
    (hurl : ∀ c ∈ ivs, isUrlChar c = true) :
    detectEnc ivs = .ok .b64UrlM := by
  rw [detectEnc, if_neg, if_neg, if_pos]
  · exact ⟨hlen, List.all_eq_true.mpr hurl⟩
  · rintro ⟨_, hany⟩
    rw [List.any_eq_true] at hany
    obtain ⟨c, hc, hcp⟩ := hany
    simp only [Bool.or_eq_true, beq_iff_eq] at hcp
    rcases hcp with (rfl | rfl) | rfl
    · exact hnp hc
    · exact hns hc
    · exact hne hc
  · rintro ⟨h32, _⟩
    omega

/-- C3 witness: a concrete hand-built 22-character base64url-looking IV. -/
theorem claimC3_detectPrecedence_witness :
    detectEnc ("AAAAAAAAAAAAAAAAAAAA-_".data) = .ok .b64UrlM :=
  claimC3_detectPrecedence ("AAAAAAAAAAAAAAAAAAAA-_".data) (by decide) (by decide)
    (by decide) (by decide) (by decide)

/-- C4: structural validation. Every input to decrypt that contains no period,
or splits on the period into a number of segments different from two, fails
with the separator format error before detection or decryption. -/
theorem claimC4_structural (D : List Nat → List Nat → List Nat) (key : List Nat)
    (tok : List Char)
    (h : tok.contains '.' = false ∨ (splitDot tok).length ≠ 2) :
    decryptToken D key tok = .error .formatSeparator := by
  by_cases hc : tok.contains '.' = true
  · have hs : (splitDot tok).length ≠ 2 := by
      rcases h with h | h
      · rw [hc] at h
        cases h
      · exact h
    rw [decryptToken, hc]
    simp only [Bool.not_true, Bool.false_eq_true, if_false]
    rcases hsp : splitDot tok with _ | ⟨a, _ | ⟨b, _ | ⟨c, rest⟩⟩⟩
    · rfl
    · rfl
    · rw [hsp] at hs
      simp at hs
    · rfl
  · have hcf : tok.contains '.' = false := by
      cases hcc : tok.contains '.'
      · rfl
      · exact absurd hcc hc
    rw [decryptToken, hcf]
    rfl

/-- C4 witness: the no-separator token and the two-separator token both fail
structurally. -/
theorem claimC4_structural_witness :
    decryptToken (fun _ b => b) (List.replicate 32 48) ("abcdef".data) =
        .error .formatSeparator ∧
      decryptToken (fun _ b => b) (List.replicate 32 48) ("a.b.c".data) =
        .error .formatSeparator :=
  ⟨claimC4_structural (fun _ b => b) (List.replicate 32 48) ("abcdef".data)
      (Or.inl (by decide)),
    claimC4_structural (fun _ b => b) (List.replicate 32 48) ("a.b.c".data)
      (Or.inr (by decide))⟩

/-- C5: detection failure. Every two-segment token whose IV segment matches
none of the three detection rules fails with a format error that carries the
observed IV segment length, whose message text contains that length, and no
decryption is attempted. -/
theorem claimC5_detectFailure (D : List Nat → List Nat → List Nat) (key : List Nat)
    (tok ivs cs : List Char)
    (hsplit : splitDot tok = [ivs, cs])
    (hr1 : ¬(ivs.length = 32 ∧ ivs.all isHexChar = true))
    (hr2 : ¬((ivs.length = 24 ∨ ivs.length = 22) ∧
      ivs.any (fun c => c == '+' || c == '/' || c == '=') = true))
    (hr3 : ¬(ivs.length = 22 ∧ ivs.all isUrlChar = true)) :
    decryptToken D key tok = .error (.formatDetect ivs.length) ∧
      ∃ pre post,
        errMessage (.formatDetect ivs.length) =
          pre ++ (Nat.repr ivs.length).data ++ post := by
  have hcont : tok.contains '.' = true := by
    by_cases hm : '.' ∈ tok
    · exact contains_dot tok hm
    · exfalso
      rw [splitDot_no_dot tok hm] at hsplit
      exact absurd (congrArg List.length hsplit) (by simp)
  have hdet : detectEnc ivs = .error (.formatDetect ivs.length) := by
    rw [detectEnc, if_neg hr1, if_neg hr2, if_neg hr3]
  constructor
  · rw [decryptToken, hcont]
    simp only [Bool.not_true, Bool.false_eq_true, if_false]
    rw [hsplit]
    simp only [hdet]
  · exact ⟨"Unable to detect encoding format. IV length: ".data,
      ". Expected 32 (hex), 24 (base64), or 22 (base64url)".data, rfl⟩

/-- C5 witness: a token whose IV segment has length 10 yields the detect
error carrying length 10. -/
theorem claimC5_detectFailure_witness :
    decryptToken (fun _ b => b) (List.replicate 32 48) ("0123456789.x".data) =
        .error (.formatDetect 10) ∧
      ∃ pre post,
        errMessage (.formatDetect 10) = pre ++ (Nat.repr 10).data ++ post := by
  have h := claimC5_detectFailure (fun _ b => b) (List.replicate 32 48)
    ("0123456789.x".data) ("0123456789".data) ("x".data)
    (by decide) (by decide) (by decide) (by decide)
  simpa using h

/-- C10: empty ciphertext segment. For every token consisting of a dot-free IV
segment that passes encoding detection, followed by the separator and an empty
second segment, structural validation and detection succeed and the call fails
only inside the decryption step, with a decrypt error and never a format
error. -/
theorem claimC10_emptyCipher (D : List Nat → List Nat → List Nat) (key : List Nat)
    (ivs : List Char) (mode : EncMode)
    (hnd : '.' ∉ ivs)
    (hdet : detectEnc ivs = .ok mode) :
    ∃ e, decryptToken D key (ivs ++ ['.']) = .error (.decryptFail e) := by
  have hbytes : ∃ e, decryptBytes D key (decodeSeg mode ivs) (decodeSeg mode []) = .error e := by
    have hnil : decodeSeg mode ([] : List Char) = [] := by cases mode <;> rfl
    rw [hnil, decryptBytes]
    split_ifs with h1 h2 h3
    · exact ⟨_, rfl⟩
    · exact ⟨_, rfl⟩
    · exact ⟨_, rfl⟩
    · simp at h3
  obtain ⟨e, he⟩ := hbytes
  refine ⟨e, ?_⟩
  have hcont : ((ivs ++ ['.']).contains '.') = true := contains_dot _ (by simp)
  rw [decryptToken, hcont]
  simp only [Bool.not_true, Bool.false_eq_true, if_false]
  rw [show (ivs ++ ['.']) = ivs ++ '.' :: ([] : List Char) from rfl,
    splitDot_append _ _ hnd,
    show splitDot ([] : List Char) = [[]] from rfl]
  simp only [hdet]
  rw [he]

/-- C10 witness: a valid hex IV segment followed by the separator and nothing
else fails with a decrypt error. -/
theorem claimC10_emptyCipher_witness :
    ∃ e, decryptToken (fun _ b => b) (List.replicate 32 48)
      ("00000000000000000000000000000000.".data) = .error (.decryptFail e) := by
  have h := claimC10_emptyCipher (fun _ b => b) (List.replicate 32 48)
    ("00000000000000000000000000000000".data) .hexM (by decide) (by decide)
  simpa using h

/-- C1 witness: a concrete round trip through the hex format with the identity
block transformation, an all-zero IV and a 32-byte key. -/
theorem claimC1_roundTrip_witness :
    (encryptToken (fun _ b => b) (List.replicate 32 48) (List.replicate 16 0) hexName
        ("hi".data)).bind
      (fun tok => decryptToken (fun _ b => b) (List.replicate 32 48) tok) =
      .ok ("hi".data) :=
  claimC1_roundTrip (fun _ b => b) (fun _ b => b) (List.replicate 32 48)
    (List.replicate 16 0) ("hi".data) hexName (by decide) (by decide) (by decide)
    (fun _ _ => rfl) (fun _ => rfl) (fun _ h => h) (Or.inl rfl)

/-- C9: token shape. Every token produced by encrypt splits on the period into
exactly two non-empty segments, and for the hex format the IV segment is 32
lowercase hexadecimal characters and the ciphertext segment is non-empty
lowercase hexadecimal. -/
theorem claimC9_tokenShape (E : List Nat → List Nat → List Nat) (key iv : List Nat)
    (P fmt : List Char)
    (hkey : key.length = 32) (hiv : iv.length = 16) (hivB : allBytes iv)
    (hElen : ∀ b, (E key b).length = b.length)
    (hEB : ∀ b, allBytes b → allBytes (E key b))
    (hfmt : fmt = hexName ∨ fmt = b64Name ∨ fmt = b64UrlName) :
    ∃ ivSeg ctSeg,
      encryptToken E key iv fmt P = .ok (ivSeg ++ '.' :: ctSeg) ∧
      splitDot (ivSeg ++ '.' :: ctSeg) = [ivSeg, ctSeg] ∧
      ivSeg ≠ [] ∧ ctSeg ≠ [] ∧
      (fmt = hexName →
        ivSeg.length = 32 ∧ ivSeg.all isLowerHex = true ∧ ctSeg.all isLowerHex = true) := by
  have hctB : allBytes (encryptBytes E key iv (utf8Enc P)) :=
    encryptBytes_bytes E key iv (utf8Enc P) hivB (utf8Enc_bytes P) hEB
  have hctNe : encryptBytes E key iv (utf8Enc P) ≠ [] :=
    encryptBytes_ne_nil E key iv (utf8Enc P) hElen hiv
  have hinit : ¬(key.length ≠ 32 ∨ iv.length ≠ 16) := by
    push_neg
    exact ⟨hkey, hiv⟩
  rcases hfmt with rfl | rfl | rfl
  · refine ⟨hexEncode iv, hexEncode (encryptBytes E key iv (utf8Enc P)), ?_, ?_, ?_, ?_, ?_⟩
    · rw [encryptToken, if_neg hinit,
        if_neg (show ¬(hexName = b64UrlName) from by decide), if_pos rfl]
    · rw [splitDot_append _ _ (hexEncode_no_dot iv hivB),
        splitDot_no_dot _ (hexEncode_no_dot _ hctB)]
    · intro h0
      have := congrArg List.length h0
      rw [hexEncode_length, hiv] at this
      simp at this
    · intro h0
      have := congrArg List.length h0
      rw [hexEncode_length] at this
      simp at this
      exact hctNe this
    · intro _
      exact ⟨by rw [hexEncode_length, hiv], hexEncode_all_lower iv hivB,
        hexEncode_all_lower _ hctB⟩
  · have hnd1 : '.' ∉ b64Encode iv := by
      intro hm
      rcases b64Encode_chars iv hivB _ hm with hq | ⟨n, hn, hq⟩
      · exact absurd hq (by decide)
      · exact absurd hq.symm ((by decide : ∀ k < 64, b64Char k ≠ '.') n hn)
    have hnd2 : '.' ∉ b64Encode (encryptBytes E key iv (utf8Enc P)) := by
      intro hm
      rcases b64Encode_chars _ hctB _ hm with hq | ⟨n, hn, hq⟩
      · exact absurd hq (by decide)
      · exact absurd hq.symm ((by decide : ∀ k < 64, b64Char k ≠ '.') n hn)
    refine ⟨b64Encode iv, b64Encode (encryptBytes E key iv (utf8Enc P)), ?_, ?_, ?_, ?_, ?_⟩
    · rw [encryptToken, if_neg hinit,
        if_neg (show ¬(b64Name = b64UrlName) from by decide),
        if_neg (show ¬(b64Name = hexName) from by decide), if_pos rfl]
    · rw [splitDot_append _ _ hnd1, splitDot_no_dot _ hnd2]
    · intro h0
      have := congrArg List.length h0
      rw [b64Encode_length, hiv] at this
      simp at this
    · intro h0
      have := congrArg List.length h0
      rw [b64Encode_length] at this
      simp only [List.length_nil] at this
      have hlc : (encryptBytes E key iv (utf8Enc P)).length ≠ 0 :=
        fun hz => hctNe (List.length_eq_zero.mp hz)
      omega
    · intro hq
      exact absurd hq (by decide)
  · have hnd1 : '.' ∉ b64UrlOf (b64Encode iv) := by
      intro hm
      exact (url_chars iv hivB _ hm).2.2.2.2 rfl
    have hnd2 : '.' ∉ b64UrlOf (b64Encode (encryptBytes E key iv (utf8Enc P))) := by
      intro hm
      exact (url_chars _ hctB _ hm).2.2.2.2 rfl
    refine ⟨b64UrlOf (b64Encode iv),
      b64UrlOf (b64Encode (encryptBytes E key iv (utf8Enc P))), ?_, ?_, ?_, ?_, ?_⟩
    · rw [encryptToken, if_neg hinit, if_pos rfl]
    · rw [splitDot_append _ _ hnd1, splitDot_no_dot _ hnd2]
    · intro h0
      have := congrArg List.length h0
      rw [url_length iv hivB (by rw [hiv]), hiv] at this
      simp at this
    · exact url_nonempty _ hctB hctNe
    · intro hq
      exact absurd hq (by decide)

/-- C9 witness: a concrete hex token shape with the identity block
transformation. -/
theorem claimC9_tokenShape_witness :
    ∃ ivSeg ctSeg,
      encryptToken (fun _ b => b) (List.replicate 32 48) (List.replicate 16 0) hexName
          ("hello world".data) = .ok (ivSeg ++ '.' :: ctSeg) ∧
      splitDot (ivSeg ++ '.' :: ctSeg) = [ivSeg, ctSeg] ∧
      ivSeg ≠ [] ∧ ctSeg ≠ [] ∧
      (hexName = hexName →
        ivSeg.length = 32 ∧ ivSeg.all isLowerHex = true ∧ ctSeg.all isLowerHex = true) :=
  claimC9_tokenShape (fun _ b => b) (List.replicate 32 48) (List.replicate 16 0)
    ("hello world".data) hexName (by decide) (by decide) (by decide)
    (fun _ => rfl) (fun _ h => h) (Or.inl rfl)

/-! ## Claims about key derivation -/

theorem utf8Enc_ascii : ∀ s : List Char, (∀ c ∈ s, c.toNat < 128) →
    utf8Enc s = s.map Char.toNat
  | [], _ => rfl
  | c :: s, h => by
    have hc : c.toNat < 128 := h c (by simp)
    have ih := utf8Enc_ascii s (fun d hd => h d (by simp [hd]))
    have hcc : utf8Char c = [c.toNat] := by rw [utf8Char]; simp [hc]
    simp only [utf8Enc, List.flatMap_cons] at ih ⊢
    rw [hcc, List.map_cons, ih]
    rfl

/-- C2 counterexample: the secret consisting of the single character e-acute.
The code pads and slices the string before UTF-8 encoding, so the derived key
has 33 bytes, not 32, and differs from the byte-level derivation the claim
describes. -/
theorem claimC2_counterexample :
    deriveKey ("é".data) ≠ deriveKeySpec ("é".data) ∧
      (deriveKey ("é".data)).length = 33 := by
  constructor
  · decide
  · decide

/-- C2 amended: for every secret string consisting only of ASCII characters,
the derived key equals the byte-level derivation of the claim (the UTF-8
bytes right-padded with 0x30 to 32 bytes when shorter, the first 32 bytes
when not) and is exactly 32 bytes long. -/
theorem claimC2_deriveKey_ascii (s : List Char) (hascii : ∀ c ∈ s, c.toNat < 128) :
    deriveKey s = deriveKeySpec s ∧ (deriveKey s).length = 32 := by
  have hpadAscii : ∀ c ∈ padEnd 32 '0' s, c.toNat < 128 := by
    intro c hc
    rw [padEnd, List.mem_append] at hc
    rcases hc with hc | hc
    · exact hascii c hc
    · rw [List.eq_of_mem_replicate hc]
      decide
  have htakeAscii : ∀ c ∈ (padEnd 32 '0' s).take 32, c.toNat < 128 := by
    intro c hc
    exact hpadAscii c (List.mem_of_mem_take hc)
  have hmain : deriveKey s = deriveKeySpec s := by
    rw [deriveKey, utf8Enc_ascii _ htakeAscii, deriveKeySpec]
    rw [utf8Enc_ascii s hascii]
    by_cases hlen : s.length < 32
    · rw [if_pos (by rw [List.length_map]; omega)]
      have hpe : padEnd 32 '0' s = s ++ List.replicate (32 - s.length) '0' := rfl
      have hlenpe : (padEnd 32 '0' s).length = 32 := by
        rw [hpe, List.length_append, List.length_replicate]
        omega
      rw [List.take_of_length_le (by omega), hpe, List.map_append, List.map_replicate]
      have : Char.toNat '0' = 48 := rfl
      rw [this, List.length_map]
    · rw [if_neg (by rw [List.length_map]; omega)]
      have hpe : padEnd 32 '0' s = s := by
        rw [padEnd, show 32 - s.length = 0 from by omega]
        simp
      rw [hpe, ← List.map_take]
  refine ⟨hmain, ?_⟩
  rw [hmain, deriveKeySpec]
  by_cases hlen : (utf8Enc s).length < 32
  · rw [if_pos hlen]
    simp only [List.length_append, List.length_replicate]
    omega
  · rw [if_neg hlen]
    rw [List.length_take]
    omega

/-- C2 amended witness: a concrete short ASCII secret derives the padded
32-byte key of the specification. -/
theorem claimC2_deriveKey_ascii_witness :
    deriveKey ("abc".data) = deriveKeySpec ("abc".data) ∧
      (deriveKey ("abc".data)).length = 32 :=
  claimC2_deriveKey_ascii ("abc".data) (by decide)

/-! ## Claims about the execute loop -/

/-- Record the loop body pushes for one item: the normal record on success,
the error record under continueOnFail on a per-item failure. -/
def expectedRecord (E D : List Nat → List Nat → List Nat) (key : List Nat)
    (ivs : Nat → List Nat) (idx : Nat) (it : Item) : OutRecord :=
  match processItem E D key (ivs idx) it.params with
  | .ok r => okRecord it idx r
  | .error e => errRecord idx e

theorem runItems_tolerant (E D : List Nat → List Nat → List Nat) (key : List Nat)
    (ivs : Nat → List Nat) : ∀ (items : List Item) (idx : Nat),
    ∃ recs, runItems E D key true ivs idx items = .ok recs ∧
      recs.length = items.length ∧
      ∀ i (h1 : i < items.length) (h2 : i < recs.length),
        recs.get ⟨i, h2⟩ = expectedRecord E D key ivs (idx + i) (items.get ⟨i, h1⟩)
  | [], idx => ⟨[], rfl, rfl, fun i h1 _ => absurd h1 (by simp)⟩
  | it :: rest, idx => by
    obtain ⟨recs, hrun, hlen, hget⟩ := runItems_tolerant E D key ivs rest (idx + 1)
    cases hpi : processItem E D key (ivs idx) it.params with
    | ok r =>
      refine ⟨okRecord it idx r :: recs, ?_, by simp [hlen], ?_⟩
      · simp only [runItems, hpi, hrun]
      · intro i h1 h2
        match i with
        | 0 => simp [expectedRecord, hpi]
        | j + 1 =>
          have hj := hget j (by simpa using h1) (by simpa using h2)
          have harith : idx + (j + 1) = idx + 1 + j := by omega
          simp only [List.get_cons_succ, List.get_cons_succ, harith]
          exact hj
    | error e =>
      refine ⟨errRecord idx e :: recs, ?_, by simp [hlen], ?_⟩
      · simp only [runItems, hpi, hrun, if_pos]
      · intro i h1 h2
        match i with
        | 0 => simp [expectedRecord, hpi]
        | j + 1 =>
          have hj := hget j (by simpa using h1) (by simpa using h2)
          have harith : idx + (j + 1) = idx + 1 + j := by omega
          simp only [List.get_cons_succ, List.get_cons_succ, harith]
          exact hj

/-- C6: batch isolation. In failure-tolerant mode, with the secret present,
the loop never aborts: it yields exactly one output record per input item, in
input order, the normal record for every item that succeeds and the
error-description record for every item that fails with a per-item error. -/
theorem claimC6_batchIsolation (E D : List Nat → List Nat → List Nat) (ek : List Char)
    (ivs : Nat → List Nat) (items : List Item) (hek : ek ≠ []) :
    ∃ recs, execute E D (some ek) true ivs items = .ok recs ∧
      recs.length = items.length ∧
      ∀ i (h1 : i < items.length) (h2 : i < recs.length),
        recs.get ⟨i, h2⟩ = expectedRecord E D (deriveKey ek) ivs i (items.get ⟨i, h1⟩) := by
  obtain ⟨recs, h1, h2, h3⟩ := runItems_tolerant E D (deriveKey ek) ivs items 0
  refine ⟨recs, ?_, h2, ?_⟩
  · rw [execute, if_neg hek]
    exact h1
  · intro i hi1 hi2
    have := h3 i hi1 hi2
    simpa using this

/-- C6 witness: a three-item batch whose middle item holds a malformed token;
in failure-tolerant mode the loop produces three records in order, the outer
records normal and the middle one the error record. -/
theorem claimC6_batchIsolation_witness :
    ∃ recs, execute (fun _ b => b) (fun _ b => b)
        (some ("0123456789abcdef0123456789abcdef".data)) true (fun _ => List.replicate 16 0)
        [⟨[], ⟨"encrypt".data, "a".data, "result".data, none, none⟩⟩,
         ⟨[], ⟨"decrypt".data, "abcdef".data, "result".data, none, none⟩⟩,
         ⟨[], ⟨"encrypt".data, "c".data, "result".data, none, none⟩⟩]
        = .ok recs ∧
      recs.length = 3 ∧
      ∀ i (h1 : i < 3) (h2 : i < recs.length),
        recs.get ⟨i, h2⟩ = expectedRecord (fun _ b => b) (fun _ b => b)
          (deriveKey ("0123456789abcdef0123456789abcdef".data))
          (fun _ => List.replicate 16 0) i
          (([⟨[], ⟨"encrypt".data, "a".data, "result".data, none, none⟩⟩,
            ⟨[], ⟨"decrypt".data, "abcdef".data, "result".data, none, none⟩⟩,
            ⟨[], ⟨"encrypt".data, "c".data, "result".data, none, none⟩⟩] : List Item).get
            ⟨i, h1⟩) :=
  claimC6_batchIsolation (fun _ b => b) (fun _ b => b)
    ("0123456789abcdef0123456789abcdef".data) (fun _ => List.replicate 16 0) _ (by decide)

/-- C7: missing configuration precedes all items. When the environment secret
is absent, execute fails with the configuration error before processing any
item, and no per-item record is produced, whatever the items and the
failure-tolerance mode. -/
theorem claimC7_configError (E D : List Nat → List Nat → List Nat) (cont : Bool)
    (ivs : Nat → List Nat) (items : List Item) :
    execute E D none cont ivs items = .error .configError := rfl

/-- C8 amended: frame of the output record. For every successfully processed
item whose original fields do not include one named outputFieldName, the
output record holds all the original fields followed by exactly the one new
field holding the result when keepOriginal is any value other than exactly
false, and exactly the one new field when keepOriginal is false. When the
original item does have a field named outputFieldName, that field is
overwritten instead. -/
theorem claimC8_frame (it : Item) (idx : Nat) (r : List Char)
    (hname : ∀ kv ∈ it.json, kv.1 ≠ it.params.outputFieldName) :
    (okRecord it idx r).json =
      (if it.params.keepOriginal = some false then [] else it.json) ++
        [(it.params.outputFieldName, r)] ∧
    (okRecord it idx r).pairedItem = idx := by
  have hany : ∀ js : List (List Char × List Char),
      (∀ kv ∈ js, kv.1 ≠ it.params.outputFieldName) →
      js.any (fun kv => kv.1 == it.params.outputFieldName) = false := by
    intro js hjs
    rw [List.any_eq_false]
    intro kv hkv
    simp only [beq_iff_eq]
    exact hjs kv hkv
  have heff : (if effKeep it.params.keepOriginal = true then it.json else []) =
      (if it.params.keepOriginal = some false then [] else it.json) := by
    rcases hko : it.params.keepOriginal with _ | b
    · simp [effKeep]
    · cases b <;> simp [effKeep]
  refine ⟨?_, rfl⟩
  show setField (if effKeep it.params.keepOriginal = true then it.json else [])
      it.params.outputFieldName r = _
  rw [heff, setField]
  by_cases hko : it.params.keepOriginal = some false
  · rw [if_pos hko]
    simp
  · rw [if_neg hko]
    rw [hany it.json hname]
    simp

/-- C8 amended witness: a concrete item with one field and a fresh output
field name keeps its field and gains the result field at the end. -/
theorem claimC8_frame_witness :
    (okRecord ⟨[("a".data, "b".data)],
        ⟨"encrypt".data, "hi".data, "result".data, none, none⟩⟩ 0 ("r".data)).json =
      [("a".data, "b".data), ("result".data, "r".data)] ∧
    (okRecord ⟨[("a".data, "b".data)],
        ⟨"encrypt".data, "hi".data, "result".data, none, none⟩⟩ 0 ("r".data)).pairedItem = 0 := by
  have h := claimC8_frame
    ⟨[("a".data, "b".data)], ⟨"encrypt".data, "hi".data, "result".data, none, none⟩⟩
    0 ("r".data) (by decide)
  simpa using h

/-- The identity block transformation used as a concrete cipher instance. -/
def idCipher : List Nat → List Nat → List Nat := fun _ b => b

/-- A concrete item whose original json already holds a field named like the
output field. -/
def c8item : Item :=
  ⟨[("result".data, "x".data)], ⟨"encrypt".data, "hi".data, "result".data, none, none⟩⟩

/-- The result string the encrypt branch produces for that item. -/
def c8result : List Char :=
  match processItem idCipher idCipher (deriveKey ("0123456789abcdef0123456789abcdef".data))
      (List.replicate 16 0) c8item.params with
  | .ok r => r
  | .error _ => []

/-- C8 counterexample: an item whose json already has a field named like
outputFieldName is processed successfully with keepOriginal at its default,
yet its output record does not contain that original field: the field is
overwritten, contradicting the claim that all original fields are present
and none is modified. -/
theorem claimC8_counterexample :
    processItem idCipher idCipher (deriveKey ("0123456789abcdef0123456789abcdef".data))
        (List.replicate 16 0) c8item.params = .ok c8result ∧
      effKeep c8item.params.keepOriginal = true ∧
      ¬(∀ kv ∈ c8item.json, kv ∈ (okRecord c8item 0 c8result).json) := by
  decide

end InstanceSecret
